import Mathlib

/-!
Shallow embedding of `scripts/process_text.py`: a Japanese text-normalization
pipeline built from ordered regex rewrite passes plus a protect/restore
mechanism for markup spans.  Text is modelled as `List Char` (Python `str` is a
sequence of Unicode code points).  Each `re.sub` / `str.replace` call is
embedded as an explicit left-to-right scanner with the exact leftmost,
non-overlapping match semantics of the Python original.  The random
`uuid.uuid4().hex` values are modelled by an abstract supply `Nat → List Char`
indexed by the number of `uuid4()` calls made so far; `uuid4().hex` is always a
32-character lowercase-hex string, captured by the `ValidSupply` predicate.
-/

namespace ProcessTextPy

abbrev Str := List Char

/-- Characters matched by Python `re` `\s` on `str` patterns (Unicode whitespace). -/
def isPySpace (c : Char) : Bool :=
  let n := c.toNat
  (0x9 ≤ n && n ≤ 0xd) || (0x1c ≤ n && n ≤ 0x1f) || n == 0x20 || n == 0x85 ||
    n == 0xa0 || n == 0x1680 || (0x2000 ≤ n && n ≤ 0x200a) || n == 0x2028 ||
    n == 0x2029 || n == 0x202f || n == 0x205f || n == 0x3000

/-- Characters matched by the regex class `[A-Za-z0-9]`. -/
def isAsciiAlnum (c : Char) : Bool :=
  let n := c.toNat
  (0x41 ≤ n && n ≤ 0x5a) || (0x61 ≤ n && n ≤ 0x7a) || (0x30 ≤ n && n ≤ 0x39)

/-- Python `text.replace(pat, repl)` (leftmost, non-overlapping), with explicit
fuel; every step consumes at least one input character, so `fuel = s.length`
is always enough.  A nonempty pattern is assumed (true of every call site in
the source). -/
def replaceAllFuel (pat repl : Str) : Nat → Str → Str
  | _, [] => []
  | 0, s => s
  | fuel+1, c :: rest =>
    if !pat.isEmpty && pat.isPrefixOf (c :: rest) then
      repl ++ replaceAllFuel pat repl fuel ((c :: rest).drop pat.length)
    else
      c :: replaceAllFuel pat repl fuel rest

def replaceAll (pat repl s : Str) : Str := replaceAllFuel pat repl s.length s

/-- The `escape_map` dictionary from `convert_escaped_halfwidth_to_fullwidth`. -/
def escape_map : List (Char × Char) :=
  [('(', '（'), (')', '）'), ('?', '？'), ('!', '！'), ('-', '－'), (',', '，'),
   ('.', '．'), (':', '：'), (';', '；'), ('[', '［'), (']', '］'), ('{', '｛'),
   ('}', '｝'), ('<', '〈'), ('>', '〉'), ('#', '＃'), ('&', '＆'), ('*', '＊'),
   ('%', '％'), ('=', '＝'), ('+', '＋'), ('/', '／'), ('\\', '＼'), ('|', '｜'),
   ('^', '＾'), ('~', '～'), ('"', '＂'), ('\'', '＇')]

/-- Characters matched by the regex class of the escaped-symbol pattern: the
ASCII punctuation ranges `!` to `/`, `:` to `@`, `[` to backtick, and `{` to
`~`. -/
def escSymbol (c : Char) : Bool :=
  let n := c.toNat
  (0x21 ≤ n && n ≤ 0x2f) || (0x3a ≤ n && n ≤ 0x40) ||
    (0x5b ≤ n && n ≤ 0x60) || (0x7b ≤ n && n ≤ 0x7e)

/-- Python `escape_map.get(symbol, symbol)`. -/
def escLookup (c : Char) : Char := (escape_map.lookup c).getD c

/-- Embedding of `convert_escaped_halfwidth_to_fullwidth`: a substitution of
backslash followed by one `escSymbol` character, where the replacer returns
`escape_map.get(symbol, symbol)`. -/
def convert_escaped_halfwidth_to_fullwidth : Str → Str
  | [] => []
  | [c] => [c]
  | c :: d :: rest =>
    if c = '\\' ∧ escSymbol d then
      escLookup d :: convert_escaped_halfwidth_to_fullwidth rest
    else
      c :: convert_escaped_halfwidth_to_fullwidth (d :: rest)

/-- Embedding of `convert_specific_symbols`: six ordered `str.replace` calls. -/
def convert_specific_symbols (text : Str) : Str :=
  replaceAll ['？', ' '] ['？']
    (replaceAll ['?'] ['？']
      (replaceAll ['.', '.', '.'] ['…']
        (replaceAll ['–', '–'] ['⸺']
          (replaceAll ['─', '─'] ['⸺']
            (replaceAll ['·'] ['・'] text)))))

/-- Python `chr(ord(char) + 0xFEE0)`. -/
def to_fullwidth (c : Char) : Char := Char.ofNat (c.toNat + 0xFEE0)

def optAlnum : Option Char → Bool
  | some c => isAsciiAlnum c
  | none => false

/-- Scanner for `re.sub(r'(?<![A-Za-z0-9])([A-Za-z0-9])(?![A-Za-z0-9])', ...)`:
the lookarounds are zero-width, so the pass maps each character in place, with
the neighbour context taken from the original string (`prev` is the previous
original character). -/
def singleAlnumGo : Option Char → Str → Str
  | _, [] => []
  | prev, c :: rest =>
    (if isAsciiAlnum c && !optAlnum prev && !optAlnum rest.head? then
      to_fullwidth c
    else c) :: singleAlnumGo (some c) rest

/-- Embedding of `convert_single_halfwidth_alnum_to_fullwidth`. -/
def convert_single_halfwidth_alnum_to_fullwidth (s : Str) : Str :=
  singleAlnumGo none s

/-- Characters matched by the regex class `[\u3000-\u9FFF]`. -/
def isCJK (c : Char) : Bool := 0x3000 ≤ c.toNat && c.toNat ≤ 0x9FFF

def optCJK : Option Char → Bool
  | some c => isCJK c
  | none => false

/-- Characters matched by the regex class `[？！]`. -/
def isQuestionBang (c : Char) : Bool := c == '？' || c == '！'

/-- Scanner for `re.sub(r'(?<=[\u3000-\u9FFF])[？！](?=[\u3000-\u9FFF])',
lambda m: m.group() + '　', text)`. -/
def addSpaceGo : Option Char → Str → Str
  | _, [] => []
  | prev, c :: rest =>
    if isQuestionBang c && optCJK prev && optCJK rest.head? then
      c :: '　' :: addSpaceGo (some c) rest
    else
      c :: addSpaceGo (some c) rest

/-- Embedding of `add_fullwidth_space_after_question_exclamation`. -/
def add_fullwidth_space_after_question_exclamation (s : Str) : Str :=
  addSpaceGo none s

/-- Embedding of `remove_fullwidth_space_before_closing_quote`:
`re.sub(r'　(?=」)', '', text)`. -/
def remove_fullwidth_space_before_closing_quote : Str → Str
  | [] => []
  | c :: rest =>
    if c = '　' ∧ rest.head? = some '」' then
      remove_fullwidth_space_before_closing_quote rest
    else
      c :: remove_fullwidth_space_before_closing_quote rest

/-- Case-insensitive match of one character against a lowercase letter
(the effect of `re.IGNORECASE` on the ASCII tag names used in the source). -/
def ciIs (c lo : Char) : Bool := c == lo || c.toNat + 0x20 == lo.toNat

def isQuote (c : Char) : Bool := c == '"' || c == '\''

/-- Attempt the search pattern `src\s*=\s*["\']([^"\']+)["\']` at the current
position; on success return the capture group (the `src` value). -/
def trySrcAt : Str → Option Str
  | c1 :: c2 :: c3 :: rest =>
    if c1 = 's' ∧ c2 = 'r' ∧ c3 = 'c' then
      match rest.dropWhile isPySpace with
      | d :: rest2 =>
        if d = '=' then
          match rest2.dropWhile isPySpace with
          | q :: rest4 =>
            if isQuote q then
              let val := rest4.takeWhile (fun c => !isQuote c)
              match rest4.dropWhile (fun c => !isQuote c) with
              | q2 :: _ => if !val.isEmpty && isQuote q2 then some val else none
              | [] => none
            else none
          | [] => none
        else none
      | [] => none
    else none
  | _ => none

/-- Embedding of `re.search(r'src\s*=\s*["\']([^"\']+)["\']', tag)`:
leftmost match wins. -/
def findSrc : Str → Option Str
  | [] => none
  | c :: rest =>
    match trySrcAt (c :: rest) with
    | some v => some v
    | none => findSrc rest

/-- Attempt the pattern `<img\s+[^>]*>` (with `re.IGNORECASE`) at the current
position; on success return the whole matched tag and the remaining input. -/
def tryImgAt : Str → Option (Str × Str)
  | [] => none
  | c0 :: rest0 =>
    if c0 = '<' then
      match rest0 with
      | c1 :: c2 :: c3 :: d :: rest2 =>
        if ciIs c1 'i' ∧ ciIs c2 'm' ∧ ciIs c3 'g' ∧ isPySpace d then
          let body := rest2.takeWhile (fun c => c != '>')
          match rest2.dropWhile (fun c => c != '>') with
          | e :: rest4 =>
            if e = '>' then
              some ('<' :: c1 :: c2 :: c3 :: d :: (body ++ ['>']), rest4)
            else none
          | [] => none
        else none
      | _ => none
    else none

def convertImgFuel : Nat → Str → Str
  | _, [] => []
  | 0, s => s
  | fuel+1, c :: rest =>
    match tryImgAt (c :: rest) with
    | some (tag, rest') =>
      (match findSrc tag with
       | some src => '!' :: '[' :: ']' :: '(' :: (src ++ [')'])
       | none => tag) ++ convertImgFuel fuel rest'
    | none => c :: convertImgFuel fuel rest

/-- Embedding of `convert_img_to_markdown`. -/
def convert_img_to_markdown (s : Str) : Str := convertImgFuel s.length s

/-- Embedding of `replace_br_tag`: `text.replace('<br>', '\n\n')`. -/
def replace_br_tag (s : Str) : Str :=
  replaceAll ['<', 'b', 'r', '>'] ['\n', '\n'] s

/-- Embedding of `replace_tag_to_symbol`:
`text.replace('<', '〈').replace('>', '〉？')`. -/
def replace_tag_to_symbol (s : Str) : Str :=
  replaceAll ['>'] ['〉', '？'] (replaceAll ['<'] ['〈'] s)

/-- A `uuid.uuid4().hex` supply: the value returned by the n-th `uuid4()` call. -/
abbrev Supply := Nat → Str

def isHexLower (c : Char) : Bool :=
  let n := c.toNat
  (0x30 ≤ n && n ≤ 0x39) || (0x61 ≤ n && n ≤ 0x66)

/-- A supply is valid when every value has the shape of `uuid4().hex`:
exactly 32 lowercase hexadecimal characters. -/
def ValidSupply (sup : Supply) : Prop :=
  ∀ n, (sup n).length = 32 ∧ ∀ c ∈ sup n, isHexLower c = true

def htmlTagMark : Str := ['_', '_', 'H', 'T', 'M', 'L', '_', 'T', 'A', 'G', '_']

def markdownLinkMark : Str :=
  ['_', '_', 'M', 'A', 'R', 'K', 'D', 'O', 'W', 'N', '_', 'L', 'I', 'N', 'K', '_']

/-- Python f-string `f"__HTML_TAG_{uuid.uuid4().hex}__"`. -/
def htmlTagKey (h : Str) : Str := htmlTagMark ++ h ++ ['_', '_']

/-- Python f-string `f"__MARKDOWN_LINK_{uuid.uuid4().hex}__"`. -/
def markdownLinkKey (h : Str) : Str := markdownLinkMark ++ h ++ ['_', '_']

/-- Python dict insertion `protected[key] = v`: updates in place if the key is
present (keeping its position), appends otherwise. -/
def dictInsert (k v : Str) : List (Str × Str) → List (Str × Str)
  | [] => [(k, v)]
  | (k', v') :: rest =>
    if k' == k then (k', v) :: rest else (k', v') :: dictInsert k v rest

/-- Extraction state: number of `uuid4()` calls made so far, and the
`protected` dict in insertion order. -/
structure ExtractSt where
  n : Nat
  prot : List (Str × Str)
deriving Repr, DecidableEq

/-- Attempt `<[^<>]+>` at the current position. -/
def tryTagAt : Str → Option (Str × Str)
  | [] => none
  | c0 :: rest =>
    if c0 = '<' then
      let inner := rest.takeWhile (fun c => c != '<' && c != '>')
      if inner.isEmpty then none
      else
        match rest.dropWhile (fun c => c != '<' && c != '>') with
        | e :: rest3 => if e = '>' then some ('<' :: (inner ++ ['>']), rest3) else none
        | [] => none
    else none

/-- Attempt `!\[[^\]]*\]\([^\)]*\)` at the current position. -/
def tryImageAt : Str → Option (Str × Str)
  | [] => none
  | c0 :: rest0 =>
    if c0 = '!' then
      match rest0 with
      | c1 :: rest =>
        if c1 = '[' then
          let alt := rest.takeWhile (fun c => c != ']')
          match rest.dropWhile (fun c => c != ']') with
          | e1 :: e2 :: rest3 =>
            if e1 = ']' ∧ e2 = '(' then
              let url := rest3.takeWhile (fun c => c != ')')
              match rest3.dropWhile (fun c => c != ')') with
              | e3 :: rest5 =>
                if e3 = ')' then
                  some ('!' :: '[' :: (alt ++ (']' :: '(' :: (url ++ [')']))), rest5)
                else none
              | [] => none
            else none
          | _ => none
        else none
      | [] => none
    else none

/-- Attempt `\[[^\]]+\]\([^\)]+\)` at the current position. -/
def tryLinkAt : Str → Option (Str × Str)
  | [] => none
  | c0 :: rest =>
    if c0 = '[' then
      let txt := rest.takeWhile (fun c => c != ']')
      if txt.isEmpty then none
      else
        match rest.dropWhile (fun c => c != ']') with
        | e1 :: e2 :: rest3 =>
          if e1 = ']' ∧ e2 = '(' then
            let url := rest3.takeWhile (fun c => c != ')')
            if url.isEmpty then none
            else
              match rest3.dropWhile (fun c => c != ')') with
              | e3 :: rest5 =>
                if e3 = ')' then
                  some ('[' :: (txt ++ (']' :: '(' :: (url ++ [')']))), rest5)
                else none
              | [] => none
          else none
        | _ => none
    else none

/-- One `re.sub(pattern, replacer, text)` pass of `extract_protected_regions`:
each match is replaced by a fresh placeholder key and recorded in the dict.
`re.sub` does not rescan replacement text, so scanning continues on the
remainder of the original input after each match. -/
def passFuel (sup : Supply) (tryMatch : Str → Option (Str × Str)) (mkKey : Str → Str) :
    Nat → ExtractSt → Str → Str × ExtractSt
  | _, st, [] => ([], st)
  | 0, st, s => (s, st)
  | fuel+1, st, c :: rest =>
    match tryMatch (c :: rest) with
    | some (orig, rest') =>
      let key := mkKey (sup st.n)
      let out :=
        passFuel sup tryMatch mkKey fuel ⟨st.n + 1, dictInsert key orig st.prot⟩ rest'
      (key ++ out.1, out.2)
    | none =>
      let out := passFuel sup tryMatch mkKey fuel st rest
      (c :: out.1, out.2)

/-- One full `re.sub` protection pass over the text-and-state pair. -/
def runPass (sup : Supply) (tryMatch : Str → Option (Str × Str)) (mkKey : Str → Str)
    (o : Str × ExtractSt) : Str × ExtractSt :=
  passFuel sup tryMatch mkKey o.1.length o.2 o.1

/-- Embedding of `extract_protected_regions`: the HTML-tag pass, then the
Markdown-image pass, then the Markdown-link pass. -/
def extract_protected_regions (sup : Supply) (s : Str) : Str × ExtractSt :=
  runPass sup tryLinkAt markdownLinkKey
    (runPass sup tryImageAt markdownLinkKey
      (runPass sup tryTagAt htmlTagKey (s, ⟨0, []⟩)))

/-- Embedding of `restore_protected_regions`: `text.replace(key, original)`
for every dict entry in insertion order. -/
def restore_protected_regions (s : Str) (prot : List (Str × Str)) : Str :=
  prot.foldl (fun t kv => replaceAll kv.1 kv.2 t) s

/-- The `void_tags` list from `convert_html_void_tags_to_xhtml`. -/
def void_tags : List Str :=
  [['a', 'r', 'e', 'a'], ['b', 'a', 's', 'e'], ['b', 'r'], ['c', 'o', 'l'],
   ['e', 'm', 'b', 'e', 'd'], ['h', 'r'], ['i', 'm', 'g'],
   ['i', 'n', 'p', 'u', 't'], ['l', 'i', 'n', 'k'], ['m', 'e', 't', 'a'],
   ['p', 'a', 'r', 'a', 'm'], ['s', 'o', 'u', 'r', 'c', 'e'],
   ['t', 'r', 'a', 'c', 'k'], ['w', 'b', 'r']]

/-- Case-insensitive match of a fixed lowercase tag name; returns the rest. -/
def ciMatch : Str → Str → Option Str
  | [], s => some s
  | _ :: _, [] => none
  | t :: ts, c :: rest => if ciIs c t then ciMatch ts rest else none

/-- Attempt `<{tag}(\s[^<>]*?)?>` (with `re.IGNORECASE`) at the current
position; on success return the replacement `<{tag}\1 />` (the tag name in the
replacement template is the lowercase loop variable) and the remaining input. -/
def tryVoidAt (tag : Str) : Str → Option (Str × Str)
  | [] => none
  | c0 :: rest =>
    if c0 = '<' then
      match ciMatch tag rest with
      | some rest2 =>
        match rest2 with
        | d :: rest3 =>
          if d = '>' then some ('<' :: (tag ++ [' ', '/', '>']), rest3)
          else if isPySpace d then
            let attrs := rest3.takeWhile (fun c => c != '<' && c != '>')
            match rest3.dropWhile (fun c => c != '<' && c != '>') with
            | e :: rest5 =>
              if e = '>' then
                some ('<' :: (tag ++ (d :: attrs) ++ [' ', '/', '>']), rest5)
              else none
            | [] => none
          else none
        | [] => none
      | none => none
    else none

def voidPassFuel (tag : Str) : Nat → Str → Str
  | _, [] => []
  | 0, s => s
  | fuel+1, c :: rest =>
    match tryVoidAt tag (c :: rest) with
    | some (repl, rest') => repl ++ voidPassFuel tag fuel rest'
    | none => c :: voidPassFuel tag fuel rest

/-- Embedding of `convert_html_void_tags_to_xhtml`: one substitution pass per
void tag, in list order. -/
def convert_html_void_tags_to_xhtml (s : Str) : Str :=
  void_tags.foldl (fun t tag => voidPassFuel tag t.length t) s

/-- The part of `process_text` before the protect stage. -/
def preExtract (s : Str) : Str :=
  replace_tag_to_symbol (replace_br_tag (convert_img_to_markdown s))

/-- Stages 5-10 of `process_text`: the six passes applied between the protect
stage and the restore stage. -/
def midStages (s : Str) : Str :=
  convert_html_void_tags_to_xhtml
    (remove_fullwidth_space_before_closing_quote
      (add_fullwidth_space_after_question_exclamation
        (convert_single_halfwidth_alnum_to_fullwidth
          (convert_specific_symbols
            (convert_escaped_halfwidth_to_fullwidth s)))))

/-- Embedding of `process_text`, parameterized by the `uuid4().hex` supply. -/
def process_text (sup : Supply) (s : Str) : Str :=
  restore_protected_regions
    (midStages (extract_protected_regions sup (preExtract s)).1)
    (extract_protected_regions sup (preExtract s)).2.prot

/-- String-level wrapper of `process_text`. -/
def processString (sup : Supply) (s : String) : String :=
  String.mk (process_text sup s.data)

/-! Concrete supplies used to witness runs of the program.  Each models a
sequence of `uuid4().hex` draws: 32 lowercase hex characters per call,
pairwise distinct across the calls of one run. -/

def hexDigits : Str := "0123456789abcdef".data

def hexChar (n : Nat) : Char := hexDigits.getD (n % 16) '0'

def supA : Supply := fun n => List.replicate 31 'a' ++ [hexChar n]

def supB : Supply := fun n => List.replicate 31 'b' ++ [hexChar n]

/-- Both-neighbour context of every character of a string: triples of the
previous character (if any), the character, and the next character (if any). -/
def neighborTriples : Option Char → Str → List (Option Char × Char × Option Char)
  | _, [] => []
  | prev, c :: rest => (prev, c, rest.head?) :: neighborTriples (some c) rest

/-- Specification-side definition, following the spec's words for stage 7:
any single ASCII letter or digit not immediately preceded or followed by
another ASCII letter or digit is replaced by its full-width form (code point
plus the 0xFEE0 offset); every other character is kept. -/
def spec_single_widen (s : Str) : Str :=
  (neighborTriples none s).map fun t =>
    if isAsciiAlnum t.2.1 && !optAlnum t.1 && !optAlnum t.2.2 then
      Char.ofNat (t.2.1.toNat + 0xFEE0)
    else t.2.1

/-- Specification-side definition, following the spec's words for stage 8:
a full-width question or exclamation mark that is both preceded and followed
by a character in the U+3000 to U+9FFF block has a full-width space inserted
immediately after it; every other character is kept as is. -/
def spec_add_space (s : Str) : Str :=
  ((neighborTriples none s).map fun t =>
    if isQuestionBang t.2.1 && optCJK t.1 && optCJK t.2.2 then [t.2.1, '　']
    else [t.2.1]).flatten

/-- Absence of ASCII angle brackets in a buffer. -/
def AngleFree (t : Str) : Prop := '<' ∉ t ∧ '>' ∉ t

/-! The intermediate buffers of `process_text`, named stage by stage: `buf4`
is the buffer produced by the protect stage, and `buf5` to `buf9` are the
outputs of the five rewrite stages that follow it.  `midStages` applied to
`buf4` is the void-tag stage applied to `buf9`. -/

def buf4 (sup : Supply) (s : Str) : Str :=
  (extract_protected_regions sup (preExtract s)).1

def buf5 (sup : Supply) (s : Str) : Str :=
  convert_escaped_halfwidth_to_fullwidth (buf4 sup s)

def buf6 (sup : Supply) (s : Str) : Str := convert_specific_symbols (buf5 sup s)

def buf7 (sup : Supply) (s : Str) : Str :=
  convert_single_halfwidth_alnum_to_fullwidth (buf6 sup s)

def buf8 (sup : Supply) (s : Str) : Str :=
  add_fullwidth_space_after_question_exclamation (buf7 sup s)

def buf9 (sup : Supply) (s : Str) : Str :=
  remove_fullwidth_space_before_closing_quote (buf8 sup s)

/-! Basic list helpers. -/

theorem takeWhile_append_all (p : Char → Bool) (l r : Str)
    (h : ∀ c ∈ l, p c = true) : (l ++ r).takeWhile p = l ++ r.takeWhile p := by
  induction l with
  | nil => rfl
  | cons c l ih =>
    simp only [List.cons_append, List.takeWhile_cons, h c (by simp)]
    simp [ih fun d hd => h d (by simp [hd])]

theorem dropWhile_append_all (p : Char → Bool) (l r : Str)
    (h : ∀ c ∈ l, p c = true) : (l ++ r).dropWhile p = r.dropWhile p := by
  induction l with
  | nil => rfl
  | cons c l ih =>
    simp only [List.cons_append, List.dropWhile_cons, h c (by simp)]
    simp [ih fun d hd => h d (by simp [hd])]

theorem isHexLower_isAsciiAlnum (c : Char) (h : isHexLower c = true) :
    isAsciiAlnum c = true := by
  simp only [isHexLower, Bool.or_eq_true, Bool.and_eq_true, decide_eq_true_eq] at h
  simp only [isAsciiAlnum, Bool.or_eq_true, Bool.and_eq_true, decide_eq_true_eq]
  omega

theorem hexChar_isHexLower (n : Nat) : isHexLower (hexChar n) = true := by
  have h : n % 16 < 16 := Nat.mod_lt _ (by omega)
  unfold hexChar
  interval_cases hm : (n % 16) <;> decide

theorem validSupply_supA : ValidSupply supA := by
  intro n
  constructor
  · simp [supA]
  · intro c hc
    rcases List.mem_append.mp hc with h | h
    · have := List.eq_of_mem_replicate h
      subst this; decide
    · rcases List.mem_singleton.mp h with rfl
      exact hexChar_isHexLower n

theorem validSupply_supB : ValidSupply supB := by
  intro n
  constructor
  · simp [supB]
  · intro c hc
    rcases List.mem_append.mp hc with h | h
    · have := List.eq_of_mem_replicate h
      subst this; decide
    · rcases List.mem_singleton.mp h with rfl
      exact hexChar_isHexLower n

/-! Lemmas about `replaceAll` (Python `str.replace`). -/

theorem replaceAllFuel_head_notMem (p : Char) (ps repl : Str) (f : Nat) (s : Str)
    (h : p ∉ s) : replaceAllFuel (p :: ps) repl f s = s := by
  induction f generalizing s with
  | zero => cases s <;> rfl
  | succ f ih =>
    cases s with
    | nil => rfl
    | cons c rest =>
      have hc : c ≠ p := fun hcp => h (by simp [hcp])
      have hpc : (p == c) = false := beq_eq_false_iff_ne.mpr (Ne.symm hc)
      have hpre : (p :: ps).isPrefixOf (c :: rest) = false := by
        simp [List.isPrefixOf, hpc]
      rw [replaceAllFuel, if_neg (by simp [hpre]),
        ih rest (fun hm => h (by simp [hm]))]

theorem replaceAll_head_notMem (p : Char) (ps repl : Str) (s : Str)
    (h : p ∉ s) : replaceAll (p :: ps) repl s = s :=
  replaceAllFuel_head_notMem p ps repl s.length s h

theorem mem_replaceAllFuel (pat repl : Str) (f : Nat) (s : Str) (c : Char)
    (h : c ∈ replaceAllFuel pat repl f s) : c ∈ s ∨ c ∈ repl := by
  induction f generalizing s with
  | zero => cases s with
    | nil => simp [replaceAllFuel] at h
    | cons d rest => exact Or.inl h
  | succ f ih =>
    cases s with
    | nil => simp [replaceAllFuel] at h
    | cons d rest =>
      by_cases hm : (!pat.isEmpty && pat.isPrefixOf (d :: rest)) = true
      · rw [replaceAllFuel, if_pos hm] at h
        rcases List.mem_append.mp h with h | h
        · exact Or.inr h
        · rcases ih _ h with h | h
          · exact Or.inl (List.drop_subset _ _ h)
          · exact Or.inr h
      · rw [replaceAllFuel, if_neg hm] at h
        rcases List.mem_cons.mp h with rfl | h
        · exact Or.inl (by simp)
        · rcases ih _ h with h | h
          · exact Or.inl (by simp [h])
          · exact Or.inr h

theorem mem_replaceAll (pat repl : Str) (s : Str) (c : Char)
    (h : c ∈ replaceAll pat repl s) : c ∈ s ∨ c ∈ repl :=
  mem_replaceAllFuel pat repl s.length s c h

theorem not_mem_replaceAllFuel_single (p : Char) (repl : Str) (hrepl : p ∉ repl)
    (f : Nat) (s : Str) (hf : s.length ≤ f) : p ∉ replaceAllFuel [p] repl f s := by
  induction f generalizing s with
  | zero =>
    cases s with
    | nil => simp [replaceAllFuel]
    | cons c rest => simp at hf
  | succ f ih =>
    cases s with
    | nil => simp [replaceAllFuel]
    | cons c rest =>
      by_cases hc : c = p
      · subst hc
        have hm : (!([c] : Str).isEmpty && ([c] : Str).isPrefixOf (c :: rest)) = true := by
          simp [List.isPrefixOf]
        rw [replaceAllFuel, if_pos hm]
        intro hmem
        rcases List.mem_append.mp hmem with h | h
        · exact hrepl h
        · exact ih rest (by simpa using hf) (by simpa using h)
      · have hpc : (p == c) = false := beq_eq_false_iff_ne.mpr (Ne.symm hc)
        have hm : ¬((!([p] : Str).isEmpty && ([p] : Str).isPrefixOf (c :: rest)) = true) := by
          simp only [List.isPrefixOf, Bool.not_eq_true', Bool.and_eq_true, beq_iff_eq]
          exact fun h2 => hc h2.2.1.symm
        rw [replaceAllFuel, if_neg hm]
        intro hmem
        rcases List.mem_cons.mp hmem with h | h
        · exact hc h.symm
        · exact ih rest (by simpa using hf) h

theorem not_mem_replaceAll_single (p : Char) (repl : Str) (hrepl : p ∉ repl)
    (s : Str) : p ∉ replaceAll [p] repl s :=
  not_mem_replaceAllFuel_single p repl hrepl s.length s le_rfl

/-! Lemmas about the escaped-symbol stage. -/

theorem lookup_mem_values (l : List (Char × Char)) (d v : Char)
    (h : l.lookup d = some v) : v ∈ l.map Prod.snd := by
  induction l with
  | nil => simp [List.lookup] at h
  | cons p rest ih =>
    obtain ⟨k, w⟩ := p
    rw [List.lookup] at h
    cases hd : (d == k) with
    | true => rw [hd] at h; simp at h; simp [h]
    | false => rw [hd] at h; simp only [List.map_cons]; exact List.mem_cons_of_mem _ (ih h)

theorem escLookup_ne (d e : Char) (hd : d ≠ e)
    (he : ∀ p ∈ escape_map, p.2 ≠ e) : escLookup d ≠ e := by
  unfold escLookup
  cases h : escape_map.lookup d with
  | none => simpa using hd
  | some v =>
    have hv := lookup_mem_values escape_map d v h
    simp only [Option.getD_some]
    rcases List.mem_map.mp hv with ⟨p, hp, hpv⟩
    exact hpv ▸ he p hp

theorem convert_escaped_id (s : Str) (h : ∀ c ∈ s, c ≠ '\\') :
    convert_escaped_halfwidth_to_fullwidth s = s := by
  induction s using convert_escaped_halfwidth_to_fullwidth.induct with
  | case1 => rfl
  | case2 c => rfl
  | case3 c d rest hcd ih => exact absurd hcd.1 (h c (by simp))
  | case4 c d rest hcd ih =>
    rw [convert_escaped_halfwidth_to_fullwidth, if_neg hcd,
      ih fun e he => h e (List.mem_cons_of_mem _ he)]

theorem mem_convert_escaped (s : Str) (c : Char)
    (h : c ∈ convert_escaped_halfwidth_to_fullwidth s) :
    c ∈ s ∨ ∃ d, d ∈ s ∧ c = escLookup d := by
  induction s using convert_escaped_halfwidth_to_fullwidth.induct with
  | case1 => simp [convert_escaped_halfwidth_to_fullwidth] at h
  | case2 e => exact Or.inl h
  | case3 e d rest hcd ih =>
    rw [convert_escaped_halfwidth_to_fullwidth, if_pos hcd] at h
    rcases List.mem_cons.mp h with rfl | h
    · exact Or.inr ⟨d, by simp, rfl⟩
    · rcases ih h with h | ⟨d', hd', he⟩
      · exact Or.inl (by simp [h])
      · exact Or.inr ⟨d', by simp [hd'], he⟩
  | case4 e d rest hcd ih =>
    rw [convert_escaped_halfwidth_to_fullwidth, if_neg hcd] at h
    rcases List.mem_cons.mp h with rfl | h
    · exact Or.inl (by simp)
    · rcases ih h with h | ⟨d', hd', he⟩
      · exact Or.inl (by simp [h])
      · exact Or.inr ⟨d', by simp [hd'], he⟩

theorem convert_escaped_not_mem (s : Str) (e : Char) (hs : e ∉ s)
    (he : ∀ p ∈ escape_map, p.2 ≠ e) :
    e ∉ convert_escaped_halfwidth_to_fullwidth s := by
  intro h
  rcases mem_convert_escaped s e h with h | ⟨d, hd, heq⟩
  · exact hs h
  · by_cases hde : d = e
    · exact hs (hde ▸ hd)
    · exact escLookup_ne d e hde he heq.symm

/-! Lemmas about the isolated-alphanumeric stage. -/

theorem toNat_to_fullwidth (c : Char) (h : isAsciiAlnum c = true) :
    (to_fullwidth c).toNat = c.toNat + 0xFEE0 := by
  have hv : (c.toNat + 0xFEE0).isValidChar := by
    simp only [isAsciiAlnum, Bool.or_eq_true, Bool.and_eq_true, decide_eq_true_eq] at h
    right
    constructor <;> omega

  rw [to_fullwidth, Char.ofNat, dif_pos hv]
  rfl

theorem to_fullwidth_ne (c e : Char) (h : isAsciiAlnum c = true)
    (he : e.toNat < 0xFEE0) : to_fullwidth c ≠ e := by
  intro hc
  have := congrArg Char.toNat hc
  rw [toNat_to_fullwidth c h] at this
  omega

theorem singleAlnumGo_eq_spec (prev : Option Char) (s : Str) :
    singleAlnumGo prev s = (neighborTriples prev s).map (fun t =>
      if isAsciiAlnum t.2.1 && !optAlnum t.1 && !optAlnum t.2.2 then
        Char.ofNat (t.2.1.toNat + 0xFEE0)
      else t.2.1) := by
  induction s generalizing prev with
  | nil => rfl
  | cons c rest ih => simp [singleAlnumGo, neighborTriples, ih, to_fullwidth]

theorem mem_singleAlnumGo (prev : Option Char) (s : Str) (c : Char)
    (h : c ∈ singleAlnumGo prev s) :
    c ∈ s ∨ ∃ d ∈ s, isAsciiAlnum d = true ∧ c = to_fullwidth d := by
  induction s generalizing prev with
  | nil => simp [singleAlnumGo] at h
  | cons e rest ih =>
    rw [singleAlnumGo] at h
    rcases List.mem_cons.mp h with h | h
    · by_cases hc : (isAsciiAlnum e && !optAlnum prev && !optAlnum rest.head?) = true
      · rw [if_pos hc] at h
        have hc' := hc
        simp only [Bool.and_eq_true] at hc'
        exact Or.inr ⟨e, by simp, hc'.1.1, h⟩
      · rw [if_neg hc] at h
        exact Or.inl (by simp [h])
    · rcases ih _ h with h | ⟨d, hd, ha, he⟩
      · exact Or.inl (by simp [h])
      · exact Or.inr ⟨d, by simp [hd], ha, he⟩

theorem singleAlnumGo_run_end (l : Str) (p : Char) (hp : isAsciiAlnum p = true)
    (hl : ∀ c ∈ l, isAsciiAlnum c = true) : singleAlnumGo (some p) l = l := by
  induction l generalizing p with
  | nil => rfl
  | cons c rest ih =>
    rw [singleAlnumGo, if_neg (by simp [optAlnum, hp])]
    rw [ih c (hl c (by simp)) fun d hd => hl d (by simp [hd])]

theorem singleAlnumGo_run_underscore (l rest : Str) (p : Char)
    (hp : isAsciiAlnum p = true) (hl : ∀ c ∈ l, isAsciiAlnum c = true) :
    singleAlnumGo (some p) (l ++ '_' :: rest) =
      l ++ '_' :: singleAlnumGo (some '_') rest := by
  induction l generalizing p with
  | nil =>
    rw [List.nil_append, singleAlnumGo,
      if_neg (by simp [(by decide : isAsciiAlnum '_' = false)])]
    simp
  | cons c l' ih =>
    rw [List.cons_append, singleAlnumGo, if_neg (by simp [optAlnum, hp])]
    rw [ih c (hl c (by simp)) fun d hd => hl d (by simp [hd])]
    simp

theorem singleAlnumGo_run2_underscore (a b : Char) (l rest : Str)
    (prev : Option Char) (ha : isAsciiAlnum a = true) (hb : isAsciiAlnum b = true)
    (hl : ∀ c ∈ l, isAsciiAlnum c = true) :
    singleAlnumGo prev (a :: b :: (l ++ '_' :: rest)) =
      a :: b :: (l ++ '_' :: singleAlnumGo (some '_') rest) := by
  rw [singleAlnumGo]
  have hnext : optAlnum (b :: (l ++ '_' :: rest)).head? = true := by
    simp [optAlnum, hb]
  simp only [List.head?_cons] at hnext ⊢
  rw [if_neg (by simp [optAlnum, hb])]
  have := singleAlnumGo_run_underscore (b :: l) rest a ha
    (by intro c hc; rcases List.mem_cons.mp hc with rfl | hc
        · exact hb
        · exact hl c hc)
  simpa using this

/-! Lemmas about the punctuation-spacing and quote-space stages. -/

theorem addSpaceGo_eq_spec (prev : Option Char) (s : Str) :
    addSpaceGo prev s = ((neighborTriples prev s).map (fun t =>
      if isQuestionBang t.2.1 && optCJK t.1 && optCJK t.2.2 then [t.2.1, '　']
      else [t.2.1])).flatten := by
  induction s generalizing prev with
  | nil => rfl
  | cons c rest ih =>
    rw [addSpaceGo]
    by_cases hc : (isQuestionBang c && optCJK prev && optCJK rest.head?) = true
    · rw [if_pos hc]
      simp only [neighborTriples, List.map_cons, List.flatten_cons, if_pos hc]
      rw [ih]
      rfl
    · rw [if_neg hc]
      simp only [neighborTriples, List.map_cons, List.flatten_cons, if_neg hc]
      rw [ih]
      rfl

theorem addSpaceGo_id (prev : Option Char) (s : Str)
    (h : ∀ c ∈ s, isQuestionBang c = false) : addSpaceGo prev s = s := by
  induction s generalizing prev with
  | nil => rfl
  | cons c rest ih =>
    rw [addSpaceGo, if_neg (by simp [h c (by simp)])]
    rw [ih _ fun d hd => h d (by simp [hd])]

theorem mem_addSpaceGo (prev : Option Char) (s : Str) (c : Char)
    (h : c ∈ addSpaceGo prev s) : c ∈ s ∨ c = '　' := by
  induction s generalizing prev with
  | nil => simp [addSpaceGo] at h
  | cons e rest ih =>
    by_cases he : (isQuestionBang e && optCJK prev && optCJK rest.head?) = true
    · rw [addSpaceGo, if_pos he] at h
      rcases List.mem_cons.mp h with rfl | h
      · exact Or.inl (by simp)
      · rcases List.mem_cons.mp h with rfl | h
        · exact Or.inr rfl
        · rcases ih _ h with h | h
          · exact Or.inl (by simp [h])
          · exact Or.inr h
    · rw [addSpaceGo, if_neg he] at h
      rcases List.mem_cons.mp h with rfl | h
      · exact Or.inl (by simp)
      · rcases ih _ h with h | h
        · exact Or.inl (by simp [h])
        · exact Or.inr h

theorem remove_fullwidth_space_id (s : Str) (h : '　' ∉ s) :
    remove_fullwidth_space_before_closing_quote s = s := by
  induction s with
  | nil => rfl
  | cons c rest ih =>
    have hc : c ≠ '　' := fun hc => h (by simp [hc])
    rw [remove_fullwidth_space_before_closing_quote,
      if_neg (by exact fun hcc => hc hcc.1),
      ih fun hm => h (by simp [hm])]

theorem mem_remove_fullwidth_space (s : Str) (c : Char)
    (h : c ∈ remove_fullwidth_space_before_closing_quote s) : c ∈ s := by
  induction s with
  | nil => simp [remove_fullwidth_space_before_closing_quote] at h
  | cons e rest ih =>
    rw [remove_fullwidth_space_before_closing_quote] at h
    by_cases he : (e = '　' ∧ rest.head? = some '」')
    · rw [if_pos he] at h
      exact List.mem_cons_of_mem _ (ih h)
    · rw [if_neg he] at h
      rcases List.mem_cons.mp h with rfl | h
      · simp
      · exact List.mem_cons_of_mem _ (ih h)

/-! Lemmas about the specific-symbols stage. -/

theorem convert_specific_id (s : Str)
    (h1 : '·' ∉ s) (h2 : '─' ∉ s) (h3 : '–' ∉ s) (h4 : '.' ∉ s)
    (h5 : '?' ∉ s) (h6 : '？' ∉ s) : convert_specific_symbols s = s := by
  unfold convert_specific_symbols
  rw [replaceAll_head_notMem _ _ _ _ h1, replaceAll_head_notMem _ _ _ _ h2,
    replaceAll_head_notMem _ _ _ _ h3, replaceAll_head_notMem _ _ _ _ h4,
    replaceAll_head_notMem _ _ _ _ h5, replaceAll_head_notMem _ _ _ _ h6]

theorem mem_convert_specific (s : Str) (c : Char)
    (h : c ∈ convert_specific_symbols s) :
    c ∈ s ∨ c ∈ (['・', '⸺', '…', '？'] : Str) := by
  unfold convert_specific_symbols at h
  rcases mem_replaceAll _ _ _ _ h with h | hr
  rotate_left
  · simp at hr; simp [hr]
  rcases mem_replaceAll _ _ _ _ h with h | hr
  rotate_left
  · simp at hr; simp [hr]
  rcases mem_replaceAll _ _ _ _ h with h | hr
  rotate_left
  · simp at hr; simp [hr]
  rcases mem_replaceAll _ _ _ _ h with h | hr
  rotate_left
  · simp at hr; simp [hr]
  rcases mem_replaceAll _ _ _ _ h with h | hr
  rotate_left
  · simp at hr; simp [hr]
  rcases mem_replaceAll _ _ _ _ h with h | hr
  · exact Or.inl h
  · simp at hr; simp [hr]

/-! Lemmas about the protection passes. -/

theorem tryTagAt_none (c : Char) (rest : Str) (h : c ≠ '<') :
    tryTagAt (c :: rest) = none := by
  rw [tryTagAt, if_neg h]

theorem tryImageAt_none (c : Char) (rest : Str) (h : c ≠ '!') :
    tryImageAt (c :: rest) = none := by
  rw [tryImageAt.eq_def]
  simp only
  rw [if_neg h]

theorem tryLinkAt_none (c : Char) (rest : Str) (h : c ≠ '[') :
    tryLinkAt (c :: rest) = none := by
  rw [tryLinkAt, if_neg h]

theorem tryImgAt_none (c : Char) (rest : Str) (h : c ≠ '<') :
    tryImgAt (c :: rest) = none := by
  rw [tryImgAt.eq_def]
  simp only
  rw [if_neg h]

theorem tryVoidAt_none (tag : Str) (c : Char) (rest : Str) (h : c ≠ '<') :
    tryVoidAt tag (c :: rest) = none := by
  rw [tryVoidAt, if_neg h]

theorem passFuel_avoid (sup : Supply) (tryMatch : Str → Option (Str × Str))
    (mkKey : Str → Str) (avoid : Char)
    (hM : ∀ c rest, c ≠ avoid → tryMatch (c :: rest) = none)
    (f : Nat) (st : ExtractSt) (s : Str) (h : avoid ∉ s) :
    passFuel sup tryMatch mkKey f st s = (s, st) := by
  induction f generalizing s with
  | zero => cases s <;> rfl
  | succ f ih =>
    cases s with
    | nil => rfl
    | cons c rest =>
      rw [passFuel, hM c rest (fun hc => h (by simp [hc]))]
      rw [ih rest fun hm => h (by simp [hm])]

/-- In each matcher, the remainder returned with a match is a suffix of the
input's tail. -/
theorem suffix_of_dropWhile_cons (p : Char → Bool) (l rest : Str) (e : Char)
    (h : l.dropWhile p = e :: rest) : rest <:+ l :=
  List.IsSuffix.trans (List.suffix_cons e rest) (h ▸ List.dropWhile_suffix p)

theorem suffix_of_dropWhile_cons2 (p : Char → Bool) (l rest : Str) (e1 e2 : Char)
    (h : l.dropWhile p = e1 :: e2 :: rest) : rest <:+ l :=
  ((List.suffix_cons e2 rest).trans (List.suffix_cons e1 (e2 :: rest))).trans
    (h ▸ List.dropWhile_suffix p)

theorem tryTagAt_suffix (c : Char) (s orig rest' : Str)
    (h : tryTagAt (c :: s) = some (orig, rest')) : rest' <:+ s := by
  rw [tryTagAt] at h
  by_cases h1 : c = '<'
  swap
  · rw [if_neg h1] at h; exact absurd h (by simp)
  rw [if_pos h1] at h
  simp only at h
  by_cases h2 : (s.takeWhile (fun c => c != '<' && c != '>')).isEmpty = true
  · rw [if_pos h2] at h; exact absurd h (by simp)
  rw [if_neg h2] at h
  rcases hd : s.dropWhile (fun c => c != '<' && c != '>') with _ | ⟨e, rest3⟩ <;>
    rw [hd] at h
  · exact absurd h (by simp)
  simp only at h
  by_cases h3 : e = '>'
  swap
  · rw [if_neg h3] at h; exact absurd h (by simp)
  rw [if_pos h3] at h
  simp only [Option.some.injEq, Prod.mk.injEq] at h
  exact h.2 ▸ suffix_of_dropWhile_cons _ s rest3 e hd

theorem tryImageAt_suffix (c : Char) (s orig rest' : Str)
    (h : tryImageAt (c :: s) = some (orig, rest')) : rest' <:+ s := by
  rw [tryImageAt.eq_def] at h
  simp only at h
  by_cases h1 : c = '!'
  swap
  · rw [if_neg h1] at h; exact absurd h (by simp)
  rw [if_pos h1] at h
  rcases s with _ | ⟨c1, rest⟩
  · exact absurd h (by simp)
  simp only at h
  by_cases h2 : c1 = '['
  swap
  · rw [if_neg h2] at h; exact absurd h (by simp)
  rw [if_pos h2] at h
  rcases hd : rest.dropWhile (fun c => c != ']') with _ | ⟨e1, rest2⟩ <;> rw [hd] at h
  · exact absurd h (by simp)
  rcases rest2 with _ | ⟨e2, rest3⟩
  · exact absurd h (by simp)
  simp only at h
  by_cases h3 : e1 = ']' ∧ e2 = '('
  swap
  · rw [if_neg h3] at h; exact absurd h (by simp)
  rw [if_pos h3] at h
  rcases hd2 : rest3.dropWhile (fun c => c != ')') with _ | ⟨e3, rest5⟩ <;>
    rw [hd2] at h
  · exact absurd h (by simp)
  simp only at h
  by_cases h4 : e3 = ')'
  swap
  · rw [if_neg h4] at h; exact absurd h (by simp)
  rw [if_pos h4] at h
  simp only [Option.some.injEq, Prod.mk.injEq] at h
  have s1 : rest5 <:+ rest3 := suffix_of_dropWhile_cons _ rest3 rest5 e3 hd2
  have s2 : rest3 <:+ rest := suffix_of_dropWhile_cons2 _ rest rest3 e1 e2 hd
  exact h.2 ▸ (s1.trans s2).trans (List.suffix_cons c1 rest)

theorem tryLinkAt_suffix (c : Char) (s orig rest' : Str)
    (h : tryLinkAt (c :: s) = some (orig, rest')) : rest' <:+ s := by
  rw [tryLinkAt] at h
  by_cases h1 : c = '['
  swap
  · rw [if_neg h1] at h; exact absurd h (by simp)
  rw [if_pos h1] at h
  simp only at h
  by_cases h2 : (s.takeWhile (fun c => c != ']')).isEmpty = true
  · rw [if_pos h2] at h; exact absurd h (by simp)
  rw [if_neg h2] at h
  rcases hd : s.dropWhile (fun c => c != ']') with _ | ⟨e1, rest2⟩ <;> rw [hd] at h
  · exact absurd h (by simp)
  rcases rest2 with _ | ⟨e2, rest3⟩
  · exact absurd h (by simp)
  simp only at h
  by_cases h3 : e1 = ']' ∧ e2 = '('
  swap
  · rw [if_neg h3] at h; exact absurd h (by simp)
  rw [if_pos h3] at h
  by_cases h4 : (rest3.takeWhile (fun c => c != ')')).isEmpty = true
  · rw [if_pos h4] at h; exact absurd h (by simp)
  rw [if_neg h4] at h
  rcases hd2 : rest3.dropWhile (fun c => c != ')') with _ | ⟨e3, rest5⟩ <;>
    rw [hd2] at h
  · exact absurd h (by simp)
  simp only at h
  by_cases h5 : e3 = ')'
  swap
  · rw [if_neg h5] at h; exact absurd h (by simp)
  rw [if_pos h5] at h
  simp only [Option.some.injEq, Prod.mk.injEq] at h
  have s1 : rest5 <:+ rest3 := suffix_of_dropWhile_cons _ rest3 rest5 e3 hd2
  have s2 : rest3 <:+ s := suffix_of_dropWhile_cons2 _ s rest3 e1 e2 hd
  exact h.2 ▸ s1.trans s2

theorem mem_passFuel (sup : Supply) (tryMatch : Str → Option (Str × Str))
    (mkKey : Str → Str)
    (hsub : ∀ c rest orig rest', tryMatch (c :: rest) = some (orig, rest') → rest' <:+ rest)
    (f : Nat) (st : ExtractSt) (s : Str) (c : Char)
    (h : c ∈ (passFuel sup tryMatch mkKey f st s).1) :
    c ∈ s ∨ ∃ m, c ∈ mkKey (sup m) := by
  induction f generalizing s st with
  | zero => cases s with
    | nil => simp [passFuel] at h
    | cons d rest => exact Or.inl h
  | succ f ih =>
    cases s with
    | nil => simp [passFuel] at h
    | cons d rest =>
      rw [passFuel] at h
      cases hm : tryMatch (d :: rest) with
      | some pr =>
        obtain ⟨orig, rest'⟩ := pr
        rw [hm] at h
        simp only [List.mem_append] at h
        rcases h with h | h
        · exact Or.inr ⟨st.n, h⟩
        · rcases ih _ _ h with h | h
          · exact Or.inl (List.mem_cons_of_mem _
              ((hsub d rest orig rest' hm).subset h))
          · exact Or.inr h
      | none =>
        rw [hm] at h
        rcases List.mem_cons.mp h with rfl | h
        · exact Or.inl (by simp)
        · rcases ih _ _ h with h | h
          · exact Or.inl (by simp [h])
          · exact Or.inr h

/-! Character classes of placeholder keys. -/

theorem mem_markdownLinkKey (hx : Str) (c : Char) (hc : c ∈ markdownLinkKey hx) :
    c ∈ markdownLinkMark ∨ c ∈ hx ∨ c = '_' := by
  simp only [markdownLinkKey, List.append_assoc, List.mem_append] at hc
  rcases hc with hc | hc | hc
  · exact Or.inl hc
  · exact Or.inr (Or.inl hc)
  · exact Or.inr (Or.inr (by simpa using hc))

theorem markdownLinkKey_char_good (hx : Str)
    (hh : ∀ c ∈ hx, isHexLower c = true) (c : Char)
    (hc : c ∈ markdownLinkKey hx) : c = '_' ∨ isAsciiAlnum c = true := by
  rcases mem_markdownLinkKey hx c hc with hm | hm | hm
  · exact (by decide : ∀ d ∈ markdownLinkMark, d = '_' ∨ isAsciiAlnum d = true) c hm
  · exact Or.inr (isHexLower_isAsciiAlnum c (hh c hm))
  · exact Or.inl hm

theorem markdownLinkKey_not_mem (hx : Str)
    (hh : ∀ c ∈ hx, isHexLower c = true) (e : Char)
    (he : isAsciiAlnum e = false) (he2 : e ≠ '_') : e ∉ markdownLinkKey hx := by
  intro hm
  rcases markdownLinkKey_char_good hx hh e hm with h | h
  · exact he2 h
  · rw [h] at he; cases he

/-! Identity of the middle stages on a placeholder key. -/

theorem singleAlnumGo_underscore (prev : Option Char) (rest : Str) :
    singleAlnumGo prev ('_' :: rest) = '_' :: singleAlnumGo (some '_') rest := by
  rw [singleAlnumGo, if_neg (by simp [(by decide : isAsciiAlnum '_' = false)])]

theorem singleAlnumGo_mark (rest : Str) (prev : Option Char) :
    singleAlnumGo prev (markdownLinkMark ++ rest) =
      markdownLinkMark ++ singleAlnumGo (some '_') rest := by
  simp only [markdownLinkMark, List.cons_append, List.nil_append]
  simp +decide [singleAlnumGo, optAlnum]

theorem singleAlnum_key_id (hx : Str) (hlen2 : 2 ≤ hx.length)
    (hh : ∀ c ∈ hx, isAsciiAlnum c = true) (prev : Option Char) :
    singleAlnumGo prev (markdownLinkKey hx) = markdownLinkKey hx := by
  obtain ⟨a, b, t, rfl⟩ : ∃ a b t, hx = a :: b :: t := by
    cases hx with
    | nil => simp at hlen2
    | cons a t1 => cases t1 with
      | nil => simp at hlen2
      | cons b t => exact ⟨a, b, t, rfl⟩
  have ha := hh a (by simp)
  have hb := hh b (by simp)
  have ht : ∀ c ∈ t, isAsciiAlnum c = true := fun c hc => hh c (by simp [hc])
  rw [markdownLinkKey, List.append_assoc, singleAlnumGo_mark _ prev]
  congr 1
  show singleAlnumGo (some '_') (a :: b :: (t ++ '_' :: ['_'])) = _
  rw [singleAlnumGo_run2_underscore a b t ['_'] (some '_') ha hb ht,
    singleAlnumGo_underscore]
  rfl

/-! Lemmas about the void-tag stage. -/

theorem voidPassFuel_id (tag : Str) (f : Nat) (s : Str) (h : '<' ∉ s) :
    voidPassFuel tag f s = s := by
  induction f generalizing s with
  | zero => cases s <;> rfl
  | succ f ih =>
    cases s with
    | nil => rfl
    | cons c rest =>
      rw [voidPassFuel, tryVoidAt_none tag c rest (fun hc => h (by simp [hc]))]
      rw [ih rest fun hm => h (by simp [hm])]

theorem convert_void_id (s : Str) (h : '<' ∉ s) :
    convert_html_void_tags_to_xhtml s = s := by
  have key : ∀ (tags : List Str) (t : Str), '<' ∉ t →
      List.foldl (fun t tag => voidPassFuel tag t.length t) t tags = t := by
    intro tags
    induction tags with
    | nil => intro t ht; rfl
    | cons tg tags ih =>
      intro t ht
      rw [List.foldl_cons, voidPassFuel_id tg _ t ht]
      exact ih t ht
  exact key void_tags s h

/-! Restoration lemmas. -/

theorem isPrefixOf_refl (l : Str) : l.isPrefixOf l = true := by
  induction l with
  | nil => rfl
  | cons c rest ih => simp [List.isPrefixOf, ih]

theorem replaceAll_whole (k repl : Str) (hk : k ≠ []) :
    replaceAll k repl k = repl := by
  cases k with
  | nil => exact absurd rfl hk
  | cons c rest =>
    rw [replaceAll, List.length_cons, replaceAllFuel,
      if_pos (by simp [isPrefixOf_refl])]
    rw [show ((c :: rest).drop (c :: rest).length) = [] from List.drop_length _]
    cases rest.length <;> simp [replaceAllFuel]

theorem restore_single (k orig : Str) (hk : k ≠ []) :
    restore_protected_regions k [(k, orig)] = orig := by
  simp [restore_protected_regions, replaceAll_whole k orig hk]

/-! Extraction and whole-pipeline helpers for inputs without markup. -/

theorem extract_no_markup (sup : Supply) (s : Str)
    (h1 : '<' ∉ s) (h2 : '!' ∉ s) (h3 : '[' ∉ s) :
    extract_protected_regions sup s = (s, ⟨0, []⟩) := by
  unfold extract_protected_regions runPass
  rw [passFuel_avoid sup tryTagAt htmlTagKey '<' tryTagAt_none _ _ _ h1]
  simp only
  rw [passFuel_avoid sup tryImageAt markdownLinkKey '!' tryImageAt_none _ _ _ h2]
  simp only
  rw [passFuel_avoid sup tryLinkAt markdownLinkKey '[' tryLinkAt_none _ _ _ h3]

theorem process_text_no_markup (sup : Supply) (s : Str)
    (h1 : '<' ∉ preExtract s) (h2 : '!' ∉ preExtract s) (h3 : '[' ∉ preExtract s) :
    process_text sup s = midStages (preExtract s) := by
  unfold process_text
  rw [extract_no_markup sup _ h1 h2 h3]
  simp [restore_protected_regions]

/-! Key transparency: the middle stages leave a placeholder key unchanged. -/

theorem goodChar_ne (c e : Char) (hc : c = '_' ∨ isAsciiAlnum c = true)
    (he1 : isAsciiAlnum e = false) (he2 : e ≠ '_') : c ≠ e := by
  rcases hc with rfl | hc
  · exact fun h => he2 h.symm
  · intro h
    rw [h, he1] at hc
    cases hc

theorem goodChar_not_qb (c : Char) (hc : c = '_' ∨ isAsciiAlnum c = true) :
    isQuestionBang c = false := by
  have h1 : c ≠ '？' := goodChar_ne c '？' hc (by decide) (by decide)
  have h2 : c ≠ '！' := goodChar_ne c '！' hc (by decide) (by decide)
  simp [isQuestionBang, h1, h2]

theorem markdownLinkKey_ne_nil (hx : Str) : markdownLinkKey hx ≠ [] := by
  simp [markdownLinkKey, markdownLinkMark]

theorem midStages_key (hx : Str) (hlen : hx.length = 32)
    (hh : ∀ c ∈ hx, isHexLower c = true) :
    midStages (markdownLinkKey hx) = markdownLinkKey hx := by
  have hgood := markdownLinkKey_char_good hx hh
  have hnm : ∀ e : Char, isAsciiAlnum e = false → e ≠ '_' →
      e ∉ markdownLinkKey hx := fun e he1 he2 =>
    markdownLinkKey_not_mem hx hh e he1 he2
  unfold midStages
  rw [convert_escaped_id _
    (fun c hc => goodChar_ne c '\\' (hgood c hc) (by decide) (by decide))]
  rw [convert_specific_id _ (hnm '·' (by decide) (by decide))
    (hnm '─' (by decide) (by decide)) (hnm '–' (by decide) (by decide))
    (hnm '.' (by decide) (by decide)) (hnm '?' (by decide) (by decide))
    (hnm '？' (by decide) (by decide))]
  rw [show convert_single_halfwidth_alnum_to_fullwidth (markdownLinkKey hx) =
      markdownLinkKey hx from
    singleAlnum_key_id hx (by omega)
      (fun c hc => isHexLower_isAsciiAlnum c (hh c hc)) none]
  rw [show add_fullwidth_space_after_question_exclamation (markdownLinkKey hx) =
      markdownLinkKey hx from
    addSpaceGo_id none _ fun c hc => goodChar_not_qb c (hgood c hc)]
  rw [remove_fullwidth_space_id _ (hnm '　' (by decide) (by decide))]
  rw [convert_void_id _ (hnm '<' (by decide) (by decide))]

/-! Image-stage fuel adequacy, prefix skipping and match computation. -/

theorem tryImgAt_suffix (c : Char) (s tag rest' : Str)
    (h : tryImgAt (c :: s) = some (tag, rest')) : rest' <:+ s := by
  rw [tryImgAt.eq_def] at h
  simp only at h
  by_cases h1 : c = '<'
  swap
  · rw [if_neg h1] at h; exact absurd h (by simp)
  rw [if_pos h1] at h
  rcases s with _ | ⟨c1, s1⟩
  · exact absurd h (by simp)
  rcases s1 with _ | ⟨c2, s2⟩
  · exact absurd h (by simp)
  rcases s2 with _ | ⟨c3, s3⟩
  · exact absurd h (by simp)
  rcases s3 with _ | ⟨d, rest2⟩
  · exact absurd h (by simp)
  simp only at h
  by_cases h2 : ciIs c1 'i' = true ∧ ciIs c2 'm' = true ∧ ciIs c3 'g' = true ∧
    isPySpace d = true
  swap
  · rw [if_neg h2] at h; exact absurd h (by simp)
  rw [if_pos h2] at h
  rcases hd : rest2.dropWhile (fun c => c != '>') with _ | ⟨e, rest4⟩ <;>
    rw [hd] at h
  · exact absurd h (by simp)
  simp only at h
  by_cases h3 : e = '>'
  swap
  · rw [if_neg h3] at h; exact absurd h (by simp)
  rw [if_pos h3] at h
  simp only [Option.some.injEq, Prod.mk.injEq] at h
  have s1 : rest4 <:+ rest2 := suffix_of_dropWhile_cons _ rest2 rest4 e hd
  have s2 : rest2 <:+ c1 :: c2 :: c3 :: d :: rest2 :=
    ((List.suffix_cons d rest2).trans (List.suffix_cons c3 _)).trans
      ((List.suffix_cons c2 _).trans (List.suffix_cons c1 _))
  exact h.2 ▸ s1.trans s2

theorem convertImgFuel_congr (f : Nat) : ∀ (g : Nat) (s : Str),
    s.length ≤ f → s.length ≤ g → convertImgFuel f s = convertImgFuel g s := by
  induction f with
  | zero =>
    intro g s hf hg
    cases s with
    | nil => cases g <;> rfl
    | cons c rest => simp at hf
  | succ f ih =>
    intro g s hf hg
    cases s with
    | nil => cases g <;> rfl
    | cons c rest =>
      cases g with
      | zero => simp at hg
      | succ g =>
        rw [convertImgFuel, convertImgFuel]
        cases hm : tryImgAt (c :: rest) with
        | some pr =>
          obtain ⟨tag, rest'⟩ := pr
          have hlen : rest'.length ≤ rest.length :=
            (tryImgAt_suffix c rest tag rest' hm).length_le
          simp only
          rw [ih g rest' (by simp at hf; omega) (by simp at hg; omega)]
        | none =>
          simp only
          rw [ih g rest (by simp at hf; omega) (by simp at hg; omega)]

theorem convertImgFuel_skip (pre : Str) : ∀ (s : Str) (f : Nat), '<' ∉ pre →
    convertImgFuel (pre.length + f) (pre ++ s) = pre ++ convertImgFuel f s := by
  induction pre with
  | nil => intro s f _; simp
  | cons c pre' ih =>
    intro s f hpre
    rw [List.cons_append, List.length_cons,
      show pre'.length + 1 + f = (pre'.length + f) + 1 by omega,
      convertImgFuel, tryImgAt_none c _ (fun hc => hpre (by simp [hc]))]
    simp only
    rw [ih s f fun hm => hpre (by simp [hm])]
    rfl

theorem tryImgAt_match (c1 c2 c3 d : Char) (attrs post : Str)
    (h1 : ciIs c1 'i' = true) (h2 : ciIs c2 'm' = true) (h3 : ciIs c3 'g' = true)
    (hd : isPySpace d = true) (ha : '>' ∉ attrs) :
    tryImgAt ('<' :: c1 :: c2 :: c3 :: d :: (attrs ++ '>' :: post)) =
      some ('<' :: c1 :: c2 :: c3 :: d :: (attrs ++ ['>']), post) := by
  have hattrs : ∀ c ∈ attrs, (c != '>') = true := by
    intro c hc
    simp only [bne_iff_ne, ne_eq]
    exact fun hcc => ha (hcc ▸ hc)
  have ht : (attrs ++ '>' :: post).takeWhile (fun c => c != '>') = attrs := by
    rw [takeWhile_append_all _ _ _ hattrs, List.takeWhile_cons]
    simp
  have hw : (attrs ++ '>' :: post).dropWhile (fun c => c != '>') = '>' :: post := by
    rw [dropWhile_append_all _ _ _ hattrs, List.dropWhile_cons]
    simp
  rw [tryImgAt.eq_def]
  simp only
  rw [ht, hw]
  simp [h1, h2, h3, hd]

theorem passFuel_nil (sup : Supply) (tryMatch : Str → Option (Str × Str))
    (mkKey : Str → Str) (f : Nat) (st : ExtractSt) :
    passFuel sup tryMatch mkKey f st [] = ([], st) := by
  cases f <;> rfl

theorem passFuel_exact (sup : Supply) (tryMatch : Str → Option (Str × Str))
    (mkKey : Str → Str) (f : Nat) (st : ExtractSt) (s orig : Str)
    (hm : tryMatch s = some (orig, [])) (hf : f ≠ 0) (hs : s ≠ []) :
    passFuel sup tryMatch mkKey f st s =
      (mkKey (sup st.n),
        ⟨st.n + 1, dictInsert (mkKey (sup st.n)) orig st.prot⟩) := by
  cases f with
  | zero => exact absurd rfl hf
  | succ f =>
    cases s with
    | nil => exact absurd rfl hs
    | cons c rest =>
      rw [passFuel, hm]
      simp only
      rw [passFuel_nil]
      simp

/-! Angle-bracket freedom through the pipeline. -/

theorem angleFree_passFuel (sup : Supply) (hval : ValidSupply sup)
    (tryMatch : Str → Option (Str × Str))
    (hsub : ∀ c rest orig rest',
      tryMatch (c :: rest) = some (orig, rest') → rest' <:+ rest)
    (f : Nat) (st : ExtractSt) (s : Str) (h : AngleFree s) :
    AngleFree (passFuel sup tryMatch markdownLinkKey f st s).1 := by
  constructor <;> intro hmem
  · rcases mem_passFuel sup tryMatch markdownLinkKey hsub f st s '<' hmem with
      h' | ⟨m, h'⟩
    · exact h.1 h'
    · exact markdownLinkKey_not_mem _ (hval m).2 '<' (by decide) (by decide) h'
  · rcases mem_passFuel sup tryMatch markdownLinkKey hsub f st s '>' hmem with
      h' | ⟨m, h'⟩
    · exact h.2 h'
    · exact markdownLinkKey_not_mem _ (hval m).2 '>' (by decide) (by decide) h'

theorem angleFree_escaped (s : Str) (h : AngleFree s) :
    AngleFree (convert_escaped_halfwidth_to_fullwidth s) := by
  constructor
  · exact convert_escaped_not_mem s '<' h.1 (by decide)
  · exact convert_escaped_not_mem s '>' h.2 (by decide)

theorem angleFree_specific (s : Str) (h : AngleFree s) :
    AngleFree (convert_specific_symbols s) := by
  constructor <;> intro hmem
  · rcases mem_convert_specific s '<' hmem with h' | h'
    · exact h.1 h'
    · exact absurd h' (by decide)
  · rcases mem_convert_specific s '>' hmem with h' | h'
    · exact h.2 h'
    · exact absurd h' (by decide)

theorem angleFree_single (s : Str) (h : AngleFree s) :
    AngleFree (convert_single_halfwidth_alnum_to_fullwidth s) := by
  constructor <;> intro hmem
  · rcases mem_singleAlnumGo none s '<' hmem with h' | ⟨d, hd, ha, he⟩
    · exact h.1 h'
    · exact to_fullwidth_ne d '<' ha (by decide) he.symm
  · rcases mem_singleAlnumGo none s '>' hmem with h' | ⟨d, hd, ha, he⟩
    · exact h.2 h'
    · exact to_fullwidth_ne d '>' ha (by decide) he.symm

theorem angleFree_addSpace (s : Str) (h : AngleFree s) :
    AngleFree (add_fullwidth_space_after_question_exclamation s) := by
  constructor <;> intro hmem
  · rcases mem_addSpaceGo none s '<' hmem with h' | h'
    · exact h.1 h'
    · exact absurd h' (by decide)
  · rcases mem_addSpaceGo none s '>' hmem with h' | h'
    · exact h.2 h'
    · exact absurd h' (by decide)

theorem angleFree_remove (s : Str) (h : AngleFree s) :
    AngleFree (remove_fullwidth_space_before_closing_quote s) :=
  ⟨fun hm => h.1 (mem_remove_fullwidth_space s '<' hm),
   fun hm => h.2 (mem_remove_fullwidth_space s '>' hm)⟩

set_option maxRecDepth 65536

/-- Claim C1.  The protection round-trip fails on the code: on the nested
Markdown input `[![a](b)](c)`, the image span `![a](b)` is extracted by the
protect stage and recorded in the protection map, yet the final output of
`process_text` does not contain it; instead the image span's placeholder key
leaks verbatim into the output, because the image key's only occurrence is
inside the recorded original of the enclosing link span and the link span is
restored after the image key's replacement pass has already run. -/
theorem C1_roundtrip_leak :
    ("![a](b)".data ∈
      (extract_protected_regions supA (preExtract "[![a](b)](c)".data)).2.prot.map
        Prod.snd) ∧
    ¬ ("![a](b)".data <:+: process_text supA "[![a](b)](c)".data) ∧
    (markdownLinkKey (supA 0) <:+: process_text supA "[![a](b)](c)".data) := by
  refine ⟨by decide, by decide, by decide⟩

/-- Claim C2.  Determinism fails on the code: with two valid `uuid4().hex`
supplies (each value 32 lowercase hex characters, as `uuid4().hex` always is),
`process_text` returns different outputs on the nested Markdown input
`[![a](b)](c)`, because the leaked image-span placeholder contains the random
hex and is never substituted away. -/
theorem C2_determinism_fails :
    ValidSupply supA ∧ ValidSupply supB ∧
      process_text supA "[![a](b)](c)".data ≠ process_text supB "[![a](b)](c)".data :=
  ⟨validSupply_supA, validSupply_supB, by decide⟩

/-- Claim C3.  The protection-map invariant fails on the code: on input
`[![a](b)](c)`, the image-span key is inserted into the protection map (paired
with original `![a](b)`), but it occurs zero times — not exactly once — in the
buffer handed to `restore_protected_regions`, because its only occurrence was
swallowed into the recorded original of the enclosing link span. -/
theorem C3_map_invariant_fails :
    ((markdownLinkKey (supA 0), "![a](b)".data) ∈
      (extract_protected_regions supA (preExtract "[![a](b)](c)".data)).2.prot) ∧
    ¬ (markdownLinkKey (supA 0) <:+:
        midStages (extract_protected_regions supA (preExtract "[![a](b)](c)".data)).1) := by
  refine ⟨by decide, by decide⟩

/-- Claim C4, counterexample.  The escape lookup table of
`convert_escaped_halfwidth_to_fullwidth` has 28 entries, not the 37 the claim
asserts. -/
theorem C4_table_size_counterexample :
    escape_map.length = 28 ∧ escape_map.length ≠ 37 := by
  refine ⟨by decide, by decide⟩

/-- Claim C4, as amended.  `convert_escaped_halfwidth_to_fullwidth` replaces a
backslash followed by an ASCII punctuation symbol in the regex ranges by the
table image of that symbol (`escLookup`), where the fixed table has 28 mapped
symbols; a symbol of the ranges not in the table passes through as itself with
the backslash dropped; and `process_text` maps the two-character input of a
backslash and a parenthesis to the single full-width parenthesis, for every
uuid supply. -/
theorem C4_escaped_conversion :
    escape_map.length = 28 ∧
    (∀ c rest, escSymbol c = true →
      convert_escaped_halfwidth_to_fullwidth ('\\' :: c :: rest) =
        escLookup c :: convert_escaped_halfwidth_to_fullwidth rest) ∧
    (∀ c, escape_map.lookup c = none → escLookup c = c) ∧
    (∀ sup : Supply, process_text sup "\\(".data = "（".data) := by
  refine ⟨by decide, ?_, ?_, ?_⟩
  · intro c rest h
    rw [convert_escaped_halfwidth_to_fullwidth, if_pos ⟨rfl, h⟩]
  · intro c h
    simp [escLookup, h]
  · intro sup
    exact (process_text_no_markup sup _ (by decide) (by decide) (by decide)).trans
      (by decide)

/-- Claim C4, witness for the amended theorem: the escaped parenthesis is in
the symbol range and is rewritten to the full-width parenthesis. -/
theorem C4_escaped_conversion_witness :
    escSymbol '(' = true ∧
      convert_escaped_halfwidth_to_fullwidth ['\\', '('] = ['（'] :=
  ⟨by decide, (C4_escaped_conversion.2.1 '(' [] (by decide)).trans (by decide)⟩

/-- Claim C5.  Image-tag conversion: wherever the input decomposes as a
prefix without `<`, then an `<img ...>` tag (case-insensitive tag letters, at
least one whitespace character after the tag name, attribute text without
`>`), the whole tag is replaced by the Markdown image `![](src)` built from
the `src` value found by `findSrc`, or kept unchanged when `findSrc` finds no
quoted src attribute; on the concrete tag `<img src="a.png">` the src value
`a.png` is found, and `process_text` maps that input to `![](a.png)` for every
valid uuid supply. -/
theorem C5_img_to_markdown :
    (∀ (pre : Str) (c1 c2 c3 d : Char) (attrs post : Str), '<' ∉ pre →
      ciIs c1 'i' = true → ciIs c2 'm' = true → ciIs c3 'g' = true →
      isPySpace d = true → '>' ∉ attrs →
      convert_img_to_markdown
          (pre ++ '<' :: c1 :: c2 :: c3 :: d :: (attrs ++ '>' :: post)) =
        pre ++
          (match findSrc ('<' :: c1 :: c2 :: c3 :: d :: (attrs ++ ['>'])) with
            | some src => '!' :: '[' :: ']' :: '(' :: (src ++ [')'])
            | none => '<' :: c1 :: c2 :: c3 :: d :: (attrs ++ ['>'])) ++
          convert_img_to_markdown post) ∧
    findSrc "<img src=\"a.png\">".data = some "a.png".data ∧
    (∀ sup : Supply, ValidSupply sup →
      process_text sup "<img src=\"a.png\">".data = "![](a.png)".data) := by
  refine ⟨?_, by decide, ?_⟩
  · intro pre c1 c2 c3 d attrs post hpre h1 h2 h3 hd ha
    unfold convert_img_to_markdown
    rw [List.length_append, convertImgFuel_skip pre _ _ hpre, List.append_assoc]
    congr 1
    rw [List.length_cons, convertImgFuel,
      tryImgAt_match c1 c2 c3 d attrs post h1 h2 h3 hd ha]
    simp only
    congr 1
    exact convertImgFuel_congr _ _ post
      (by simp [List.length_append]; omega) le_rfl
  · intro sup hsup
    obtain ⟨hlen0, hhex0⟩ := hsup 0
    have hkey_nb : '[' ∉ markdownLinkKey (sup 0) :=
      markdownLinkKey_not_mem _ hhex0 '[' (by decide) (by decide)
    have hpre : preExtract "<img src=\"a.png\">".data = "![](a.png)".data := by
      decide
    have hext : extract_protected_regions sup "![](a.png)".data =
        (markdownLinkKey (sup 0),
          ⟨1, [(markdownLinkKey (sup 0), "![](a.png)".data)]⟩) := by
      unfold extract_protected_regions
      rw [show runPass sup tryTagAt htmlTagKey
            ("![](a.png)".data, (⟨0, []⟩ : ExtractSt)) =
          ("![](a.png)".data, (⟨0, []⟩ : ExtractSt)) from
        passFuel_avoid sup tryTagAt htmlTagKey '<' tryTagAt_none _ _ _ (by decide)]
      rw [show runPass sup tryImageAt markdownLinkKey
            ("![](a.png)".data, (⟨0, []⟩ : ExtractSt)) =
          (markdownLinkKey (sup 0),
            ⟨1, [(markdownLinkKey (sup 0), "![](a.png)".data)]⟩) from
        passFuel_exact sup tryImageAt markdownLinkKey _ ⟨0, []⟩ _ _
          (by decide) (by decide) (by decide)]
      exact passFuel_avoid sup tryLinkAt markdownLinkKey '[' tryLinkAt_none
        _ _ _ hkey_nb
    unfold process_text
    rw [hpre, hext]
    simp only
    rw [midStages_key _ hlen0 hhex0,
      restore_single _ _ (markdownLinkKey_ne_nil _)]

/-- Claim C5, witness: a concrete valid supply under which the scenario
evaluates. -/
theorem C5_img_to_markdown_witness :
    ValidSupply supA ∧
      process_text supA "<img src=\"a.png\">".data = "![](a.png)".data :=
  ⟨validSupply_supA, C5_img_to_markdown.2.2 supA validSupply_supA⟩

/-- Claim C6.  `process_text` is not idempotent on inputs with a literal ASCII
angle bracket: on `见>见` the bracket substitution leaves `〉？` between CJK
characters, the spacing stage then inserts a full-width space after the `？`,
and a second run inserts a further full-width space (the inserted U+3000 is
itself in the lookahead range), so running the pipeline twice differs from
running it once. -/
theorem C6_not_idempotent :
    ∃ s : Str, ('<' ∈ s ∨ '>' ∈ s) ∧
      ∀ sup : Supply, process_text sup (process_text sup s) ≠ process_text sup s := by
  refine ⟨"见>见".data, by decide, fun sup => ?_⟩
  have e1 : process_text sup "见>见".data = "见〉？　见".data :=
    (process_text_no_markup sup _ (by decide) (by decide) (by decide)).trans (by decide)
  have e2 : process_text sup "见〉？　见".data = "见〉？　　见".data :=
    (process_text_no_markup sup _ (by decide) (by decide) (by decide)).trans (by decide)
  rw [e1, e2]
  decide

/-- Claim C7.  The isolated-alphanumeric stage equals the specification map
that widens exactly the ASCII alphanumerics with no ASCII-alphanumeric
neighbour (code point plus 0xFEE0) and keeps everything else; whole runs of
two or more ASCII alphanumerics are left unchanged; and the two spec
scenarios hold for every uuid supply: `A1` is unchanged and `A` becomes the
full-width letter. -/
theorem C7_single_alnum_widening :
    (∀ s : Str, convert_single_halfwidth_alnum_to_fullwidth s = spec_single_widen s) ∧
    (∀ l : Str, 2 ≤ l.length → (∀ c ∈ l, isAsciiAlnum c = true) →
      convert_single_halfwidth_alnum_to_fullwidth l = l) ∧
    (∀ sup : Supply, process_text sup "A1".data = "A1".data) ∧
    (∀ sup : Supply, process_text sup "A".data = "Ａ".data) := by
  refine ⟨?_, ?_, ?_, ?_⟩
  · intro s
    simpa [spec_single_widen, convert_single_halfwidth_alnum_to_fullwidth] using
      singleAlnumGo_eq_spec none s
  · intro l hl hall
    obtain ⟨a, b, t, rfl⟩ : ∃ a b t, l = a :: b :: t := by
      cases l with
      | nil => simp at hl
      | cons a t1 => cases t1 with
        | nil => simp at hl
        | cons b t => exact ⟨a, b, t, rfl⟩
    rw [convert_single_halfwidth_alnum_to_fullwidth, singleAlnumGo,
      if_neg (by simp [optAlnum, hall b (by simp)])]
    rw [singleAlnumGo_run_end (b :: t) a (hall a (by simp))
      fun c hc => hall c (by simp [hc])]
  · intro sup
    exact (process_text_no_markup sup _ (by decide) (by decide) (by decide)).trans
      (by decide)
  · intro sup
    exact (process_text_no_markup sup _ (by decide) (by decide) (by decide)).trans
      (by decide)

/-- Claim C7, witness for the run conjunct: the two-character run `A1` is left
untouched by the widening stage. -/
theorem C7_single_alnum_widening_witness :
    2 ≤ ("A1".data : Str).length ∧
      convert_single_halfwidth_alnum_to_fullwidth "A1".data = "A1".data :=
  ⟨by decide, C7_single_alnum_widening.2.1 "A1".data (by decide) (by decide)⟩

/-- Claim C8.  The punctuation-spacing stage equals the specification map that
inserts a full-width space (U+3000) immediately after every full-width `？` or
`！` whose both neighbours are in the U+3000 to U+9FFF block, and the spec
scenario holds for every uuid supply. -/
theorem C8_cjk_spacing :
    (∀ s : Str,
      add_fullwidth_space_after_question_exclamation s = spec_add_space s) ∧
    (∀ sup : Supply, process_text sup "见？见".data = "见？　见".data) := by
  constructor
  · intro s
    simpa [spec_add_space, add_fullwidth_space_after_question_exclamation] using
      addSpaceGo_eq_spec none s
  · intro sup
    exact (process_text_no_markup sup _ (by decide) (by decide) (by decide)).trans
      (by decide)

/-- Claim C9.  Dead branches after angle-bracket substitution: for every
input and every valid uuid supply, the buffer handed to
`extract_protected_regions` contains no ASCII `<` or `>`; consequently the
HTML-tag protection pass matches nothing (it returns its input and records
nothing); every intermediate buffer from the protect stage through the
quote-space stage stays free of ASCII angle brackets; and the void-tag stage
returns its input unchanged. -/
theorem C9_dead_branches (s : Str) (sup : Supply) (hsup : ValidSupply sup) :
    AngleFree (preExtract s) ∧
    runPass sup tryTagAt htmlTagKey (preExtract s, ⟨0, []⟩) =
      (preExtract s, ⟨0, []⟩) ∧
    AngleFree (buf4 sup s) ∧ AngleFree (buf5 sup s) ∧ AngleFree (buf6 sup s) ∧
    AngleFree (buf7 sup s) ∧ AngleFree (buf8 sup s) ∧ AngleFree (buf9 sup s) ∧
    convert_html_void_tags_to_xhtml (buf9 sup s) = buf9 sup s := by
  have h3 : AngleFree (preExtract s) := by
    unfold preExtract replace_tag_to_symbol
    constructor
    · intro hmem
      rcases mem_replaceAll _ _ _ _ hmem with h | h
      · exact not_mem_replaceAll_single '<' _ (by decide) _ h
      · exact absurd h (by decide)
    · exact not_mem_replaceAll_single '>' _ (by decide) _
  have htag : runPass sup tryTagAt htmlTagKey (preExtract s, ⟨0, []⟩) =
      (preExtract s, ⟨0, []⟩) :=
    passFuel_avoid sup tryTagAt htmlTagKey '<' tryTagAt_none _ _ _ h3.1
  have h4 : AngleFree (buf4 sup s) := by
    unfold buf4 extract_protected_regions
    rw [htag]
    unfold runPass
    apply angleFree_passFuel sup hsup tryLinkAt tryLinkAt_suffix
    apply angleFree_passFuel sup hsup tryImageAt tryImageAt_suffix
    exact h3
  have h5 : AngleFree (buf5 sup s) := angleFree_escaped _ h4
  have h6 : AngleFree (buf6 sup s) := angleFree_specific _ h5
  have h7 : AngleFree (buf7 sup s) := angleFree_single _ h6
  have h8 : AngleFree (buf8 sup s) := angleFree_addSpace _ h7
  have h9 : AngleFree (buf9 sup s) := angleFree_remove _ h8
  exact ⟨h3, htag, h4, h5, h6, h7, h8, h9, convert_void_id _ h9.1⟩

/-- Claim C9, witness: the invariant instantiated at a concrete input holding
angle brackets and Markdown, with a concrete valid supply. -/
theorem C9_dead_branches_witness :
    ValidSupply supA ∧
      (AngleFree (preExtract "a<b>![x](y)".data) ∧
       runPass supA tryTagAt htmlTagKey (preExtract "a<b>![x](y)".data, ⟨0, []⟩) =
         (preExtract "a<b>![x](y)".data, ⟨0, []⟩) ∧
       AngleFree (buf4 supA "a<b>![x](y)".data) ∧
       AngleFree (buf5 supA "a<b>![x](y)".data) ∧
       AngleFree (buf6 supA "a<b>![x](y)".data) ∧
       AngleFree (buf7 supA "a<b>![x](y)".data) ∧
       AngleFree (buf8 supA "a<b>![x](y)".data) ∧
       AngleFree (buf9 supA "a<b>![x](y)".data) ∧
       convert_html_void_tags_to_xhtml (buf9 supA "a<b>![x](y)".data) =
         buf9 supA "a<b>![x](y)".data) :=
  ⟨validSupply_supA, C9_dead_branches "a<b>![x](y)".data supA validSupply_supA⟩

/-- Claim C10.  An `img` tag with no whitespace after the tag name is not
matched by the image-conversion pattern (which requires at least one
whitespace character after `img`), so `<img>` falls through unchanged to the
angle-bracket substitution and `process_text` yields `〈img〉？`. -/
theorem C10_attributeless_img :
    convert_img_to_markdown "<img>".data = "<img>".data ∧
      ∀ sup : Supply, process_text sup "<img>".data = "〈img〉？".data := by
  refine ⟨by decide, fun sup => ?_⟩
  exact (process_text_no_markup sup _ (by decide) (by decide) (by decide)).trans
    (by decide)

end ProcessTextPy
